import Mathlib

/-!
Verification of the tviz ingestion/persistence core (tviz/logger.py and
tviz/client.py) against its natural-language specification.

The Python dictionaries carrying metric values are embedded as association
lists with string keys and rational values (Python floats and ints are
embedded in the rationals).  JSON serialization (json.dumps / json.loads on
structured values) is embedded at the JSON-value level by the Json inductive
below; Python truthiness guards such as `json.dumps(x) if x else None` are
embedded explicitly.
-/

namespace Tviz

/-- A metric mapping, embedding a Python dict with string keys and numeric
values.  Keys are unique in any mapping produced by Python. -/
abbrev Metrics := List (String × ℚ)

/-- Dict key lookup: the value bound to key `k`, embedding `data[k]` /
`key in data`. -/
def lookupKey (k : String) : Metrics → Option ℚ
  | [] => none
  | (k', v) :: rest => if k' = k then some v else lookupKey k rest

/-- Dict key removal, embedding the removal effect of `data.pop(k)`. -/
def eraseKey (k : String) : Metrics → Metrics
  | [] => []
  | (k', v) :: rest => if k' = k then eraseKey k rest else (k', v) :: eraseKey k rest

/-- Embeds `data.pop(k, default-None)`: the value (if the key is present)
together with the mapping with the key removed. -/
def popKey (k : String) (d : Metrics) : Option ℚ × Metrics :=
  (lookupKey k d, eraseKey k d)

/-- The fixed namespaces tried by `pop_metric` (logger.py:187). -/
def nsList : List String := ["env/all/", "optim/", "by_group/"]

/-- The candidate keys tried by `pop_metric(*keys)` in its exact search
order: for each synonym, the exact key first, then the key under each
namespace of `nsList` (logger.py:183-190). -/
def candKeys : List String → List String
  | [] => []
  | k :: ks => (k :: nsList.map (fun p => p ++ k)) ++ candKeys ks

/-- First key of the candidate list that is present in the mapping. -/
def firstPresent (d : Metrics) : List String → Option String
  | [] => none
  | k :: ks => if (lookupKey k d).isSome then some k else firstPresent d ks

/-- Embeds `pop_metric(*keys)` (logger.py:181-191): pop the first matching
key, trying each synonym exactly and then under the known namespaces. -/
def popMetric (keys : List String) (d : Metrics) : Option ℚ × Metrics :=
  match firstPresent d (candKeys keys) with
  | some k => (lookupKey k d, eraseKey k d)
  | none => (none, d)

/-- The synonym lists of the fifteen canonical step fields, in the order the
fifteen `pop_metric` calls are issued by `log_metrics`
(logger.py:193-211). -/
def fieldKeyLists : List (List String) :=
  [["reward_mean", "reward", "reward/total"],
   ["reward_std"],
   ["loss"],
   ["kl_divergence", "kl", "kl_sample_train", "kl_sample_train_v1"],
   ["entropy"],
   ["learning_rate", "lr"],
   ["ac_tokens_per_turn"],
   ["ob_tokens_per_turn"],
   ["total_ac_tokens"],
   ["total_turns"],
   ["time/sampling_time_mean", "sampling_time_mean"],
   ["time/total", "time_total"],
   ["frac_mixed"],
   ["frac_all_good"],
   ["frac_all_bad"]]

/-- Runs the `pop_metric` calls for the given synonym lists in order on the
working copy of the metrics dict, returning the extracted canonical values
(in order) and the remaining overflow mapping. -/
def extractAll : List (List String) → Metrics → List (Option ℚ) × Metrics
  | [], d => ([], d)
  | ks :: rest, d =>
      ((popMetric ks d).1 :: (extractAll rest (popMetric ks d).2).1,
       (extractAll rest (popMetric ks d).2).2)

/-- The full metric normalization performed by `log_metrics`
(logger.py:178-211): the fifteen canonical values, in declaration order, and
the leftover overflow mapping that is serialized into `extras`. -/
def normalizeMetrics (d : Metrics) : List (Option ℚ) × Metrics :=
  extractAll fieldKeyLists d

/-- A JSON value, embedding the structured values that `json.dumps`
serializes into TEXT columns and that `json.loads` recovers.  Serialization
to the actual character string is injective on these values, so the stored
blob is embedded by the value itself. -/
inductive Json where
  | num (q : ℚ)
  | arr (elems : List Json)
  | obj (fields : List (String × Json))

/-- Embeds `json.dumps(data) if data else None` on a dict (logger.py:241 for
`extras`, logger.py:161 for `config`): an empty dict is falsy in Python and
is stored as NULL. -/
def encodeExtras (d : Metrics) : Option Json :=
  if d = [] then none else some (Json.obj (d.map (fun kv => (kv.1, Json.num kv.2))))

/-- Embeds `json.dumps(x) if x else None` on an optional list of numbers
(logger.py:284, 304, 305, 309): a missing value and an empty list are both
falsy in Python and are stored as NULL. -/
def encodeNumList (x : Option (List ℚ)) : Option Json :=
  match x with
  | none => none
  | some l => if l = [] then none else some (Json.arr (l.map Json.num))

/-- Modelled from the spec: the reader side decodes a stored number back from
its JSON value (the dashboard that reads the store is outside src/). -/
def decodeNum : Json → Option ℚ
  | Json.num q => some q
  | _ => none

/-- Modelled from the spec: element-wise decoding of a JSON array of numbers,
failing if any element is not a number. -/
def decodeNums : List Json → Option (List ℚ)
  | [] => some []
  | e :: es =>
      match decodeNum e, decodeNums es with
      | some q, some qs => some (q :: qs)
      | _, _ => none

/-- Modelled from the spec: decoding a stored list-valued blob (the
round-trip counterpart of `encodeNumList`); a NULL column decodes to an
absent value. -/
def decodeNumList : Option Json → Option (List ℚ)
  | some (Json.arr es) => decodeNums es
  | _ => none

/-- Python `int()` truncation toward zero on a rational value. -/
def ratTrunc (q : ℚ) : ℤ :=
  if 0 ≤ q then q.floor else q.ceil

/-- Embeds `int(x) if x else None` (logger.py:234-235): `x` is falsy when it
is None or zero, in which case NULL is stored. -/
def coerceIntField (x : Option ℚ) : Option ℤ :=
  match x with
  | none => none
  | some v => if v = 0 then none else some (ratTrunc v)

/-- A row of the `steps` table, with the canonical columns of the schema
(logger.py:70-95).  The `id` and `created_at` columns are managed by the
storage engine and are not part of the ingestion semantics. -/
structure StepRow where
  run_id : String
  step : ℕ
  reward_mean : Option ℚ
  reward_std : Option ℚ
  loss : Option ℚ
  kl_divergence : Option ℚ
  entropy : Option ℚ
  learning_rate : Option ℚ
  ac_tokens_per_turn : Option ℚ
  ob_tokens_per_turn : Option ℚ
  total_ac_tokens : Option ℤ
  total_turns : Option ℤ
  sampling_time_mean : Option ℚ
  time_total : Option ℚ
  frac_mixed : Option ℚ
  frac_all_good : Option ℚ
  frac_all_bad : Option ℚ
  extras : Option Json

/-- Builds the `steps` row that `log_metrics` inserts for `(run, step)`
(logger.py:213-243): the fifteen canonical values extracted by the
`pop_metric` calls, with the two integral fields coerced, and the leftover
mapping serialized into `extras`. -/
def buildStepRow (rid : String) (n : ℕ) (metrics : Metrics) : StepRow :=
  { run_id := rid
    step := n
    reward_mean := (normalizeMetrics metrics).1.getD 0 none
    reward_std := (normalizeMetrics metrics).1.getD 1 none
    loss := (normalizeMetrics metrics).1.getD 2 none
    kl_divergence := (normalizeMetrics metrics).1.getD 3 none
    entropy := (normalizeMetrics metrics).1.getD 4 none
    learning_rate := (normalizeMetrics metrics).1.getD 5 none
    ac_tokens_per_turn := (normalizeMetrics metrics).1.getD 6 none
    ob_tokens_per_turn := (normalizeMetrics metrics).1.getD 7 none
    total_ac_tokens := coerceIntField ((normalizeMetrics metrics).1.getD 8 none)
    total_turns := coerceIntField ((normalizeMetrics metrics).1.getD 9 none)
    sampling_time_mean := (normalizeMetrics metrics).1.getD 10 none
    time_total := (normalizeMetrics metrics).1.getD 11 none
    frac_mixed := (normalizeMetrics metrics).1.getD 12 none
    frac_all_good := (normalizeMetrics metrics).1.getD 13 none
    frac_all_bad := (normalizeMetrics metrics).1.getD 14 none
    extras := encodeExtras (normalizeMetrics metrics).2 }

/-- Key equality test used by the UNIQUE(run_id, step) constraint. -/
def sameKey (rid : String) (n : ℕ) (r : StepRow) : Bool :=
  rid == r.run_id && n == r.step

/-- Embeds `INSERT OR REPLACE INTO steps` under `UNIQUE(run_id, step)`
(logger.py:216): any existing row with the same key is deleted and the new
row is inserted. -/
def upsertStep (tbl : List StepRow) (row : StepRow) : List StepRow :=
  tbl.filter (fun r => !(sameKey row.run_id row.step r)) ++ [row]

/-- The rows of a steps table holding data for the given (run, step) key. -/
def rowsFor (tbl : List StepRow) (rid : String) (n : ℕ) : List StepRow :=
  tbl.filter (sameKey rid n)

/-- A trajectory entry of a rollout dict passed to `log_rollouts`
(logger.py:250-254, 291-310).  Every field is optional: Python `dict.get`
returns None for a missing key.  Integer token ids embed in the rationals. -/
structure TrajInput where
  trajectory_idx : Option ℤ
  reward : Option ℚ
  output_text : Option String
  output_tokens : Option (List ℚ)
  logprobs : Option (List ℚ)
  pred_lat : Option ℚ
  pred_lon : Option ℚ
  distance_km : Option ℚ
  step_rewards : Option (List ℚ)
  deriving DecidableEq

/-- A rollout dict passed to `log_rollouts` (logger.py:250-287). -/
structure RolloutInput where
  group_idx : Option ℤ
  image_path : Option String
  gt_lat : Option ℚ
  gt_lon : Option ℚ
  city : Option String
  country : Option String
  prompt_text : Option String
  prompt_tokens : Option (List ℚ)
  trajectories : Option (List TrajInput)
  deriving DecidableEq

/-- Embeds `rollout.get("trajectories", [])` (logger.py:262). -/
def getTrajs (r : RolloutInput) : List TrajInput :=
  r.trajectories.getD []

/-- Embeds `rewards = [t.get("reward", 0) for t in trajectories]`
(logger.py:263). -/
def rewardsOf (ts : List TrajInput) : List ℚ :=
  ts.map (fun t => t.reward.getD 0)

/-- Embeds `sum(rewards) / len(rewards) if rewards else None`
(logger.py:264). -/
def meanRewardOf (ts : List TrajInput) : Option ℚ :=
  if rewardsOf ts = [] then none
  else some ((rewardsOf ts).sum / ((rewardsOf ts).length : ℚ))

/-- Embeds `max(rewards) if rewards else None` (logger.py:265); Python `max`
on a non-empty list folds the binary maximum over the list. -/
def bestRewardOf (ts : List TrajInput) : Option ℚ :=
  match rewardsOf ts with
  | [] => none
  | x :: xs => some (xs.foldl max x)

/-- A row of the `rollouts` table (logger.py:97-113), as inserted by
`log_rollouts` (logger.py:267-288).  The autoincrement id is tracked
separately by the connection model. -/
structure RolloutRow where
  run_id : String
  step : ℕ
  group_idx : ℤ
  image_path : Option String
  gt_lat : Option ℚ
  gt_lon : Option ℚ
  city : Option String
  country : Option String
  prompt_text : Option String
  prompt_tokens : Option Json
  mean_reward : Option ℚ
  best_reward : Option ℚ

/-- Builds the `rollouts` row for one rollout dict (logger.py:267-288). -/
def mkRolloutRow (rid : String) (st : ℕ) (r : RolloutInput) : RolloutRow :=
  { run_id := rid
    step := st
    group_idx := r.group_idx.getD 0
    image_path := r.image_path
    gt_lat := r.gt_lat
    gt_lon := r.gt_lon
    city := r.city
    country := r.country
    prompt_text := r.prompt_text
    prompt_tokens := encodeNumList r.prompt_tokens
    mean_reward := meanRewardOf (getTrajs r)
    best_reward := bestRewardOf (getTrajs r) }

/-- The column payload of a `trajectories` row except its `rollout_id`
(logger.py:115-129), as inserted by `log_rollouts` (logger.py:291-311). -/
structure TrajData where
  trajectory_idx : ℤ
  reward : ℚ
  output_text : Option String
  output_tokens : Option Json
  logprobs : Option Json
  pred_lat : Option ℚ
  pred_lon : Option ℚ
  distance_km : Option ℚ
  step_rewards : Option Json

/-- A `trajectories` row: the owning rollout id and the column payload. -/
abbrev TrajRow := ℕ × TrajData

/-- Builds the payload of the `trajectories` row for one trajectory dict
(logger.py:291-311); a missing reward defaults to zero. -/
def mkTrajData (t : TrajInput) : TrajData :=
  { trajectory_idx := t.trajectory_idx.getD 0
    reward := t.reward.getD 0
    output_text := t.output_text
    output_tokens := encodeNumList t.output_tokens
    logprobs := encodeNumList t.logprobs
    pred_lat := t.pred_lat
    pred_lon := t.pred_lon
    distance_km := t.distance_km
    step_rewards := encodeNumList t.step_rewards }

/-- The rollout and trajectory tables of the store. -/
structure DBTables where
  rollouts : List (ℕ × RolloutRow)
  trajectories : List TrajRow

/-- A SQLite connection as `log_rollouts` uses it: the committed snapshot
visible to readers, the pending uncommitted view of the open transaction,
the next autoincrement rollout id, and `cursor.lastrowid` of the most
recent rollout insert (logger.py:259-289). -/
structure Conn where
  committed : DBTables
  pending : DBTables
  nextRolloutId : ℕ
  lastRowId : ℕ

/-- One primitive database action issued by `log_rollouts`: a rollout
insert, a trajectory insert referencing the last inserted rollout id, or the
final `conn.commit()`. -/
inductive DbAction where
  | insertRollout (row : RolloutRow)
  | insertTraj (t : TrajData)
  | commit

/-- Executes one action: inserts extend only the pending view; `commit`
makes the pending view the committed snapshot (logger.py:313). -/
def applyAction (c : Conn) : DbAction → Conn
  | DbAction.insertRollout row =>
      { c with
        pending := ⟨c.pending.rollouts ++ [(c.nextRolloutId, row)], c.pending.trajectories⟩
        nextRolloutId := c.nextRolloutId + 1
        lastRowId := c.nextRolloutId }
  | DbAction.insertTraj t =>
      { c with
        pending := ⟨c.pending.rollouts, c.pending.trajectories ++ [(c.lastRowId, t)]⟩ }
  | DbAction.commit => { c with committed := c.pending }

/-- Executes a list of actions in order; a crash mid-call is modelled by
executing only a prefix of the list. -/
def runActions (c : Conn) (as : List DbAction) : Conn :=
  as.foldl applyAction c

/-- The inserts issued by the loop body of `log_rollouts` (logger.py:261-311):
for each rollout in order, its rollout row followed by one trajectory row per
trajectory in the given order. -/
def rolloutActions (rid : String) (st : ℕ) : List RolloutInput → List DbAction
  | [] => []
  | r :: rs =>
      DbAction.insertRollout (mkRolloutRow rid st r) ::
        ((getTrajs r).map (fun t => DbAction.insertTraj (mkTrajData t)) ++
          rolloutActions rid st rs)

/-- The full action trace of one `log_rollouts` call: all inserts, then the
single `conn.commit()` (logger.py:246-313). -/
def logRolloutsActions (rid : String) (st : ℕ) (rs : List RolloutInput) : List DbAction :=
  rolloutActions rid st rs ++ [DbAction.commit]

/-- The rollout rows a completed call appends, with their assigned ids. -/
def expectedRollouts (n : ℕ) (rid : String) (st : ℕ) : List RolloutInput → List (ℕ × RolloutRow)
  | [] => []
  | r :: rs => (n, mkRolloutRow rid st r) :: expectedRollouts (n + 1) rid st rs

/-- The trajectory rows a completed call appends, each referencing the id of
its parent rollout. -/
def expectedTrajs (n : ℕ) : List RolloutInput → List TrajRow
  | [] => []
  | r :: rs => (getTrajs r).map (fun t => (n, mkTrajData t)) ++ expectedTrajs (n + 1) rs

/-- Recognizes the commit action. -/
def isCommitA : DbAction → Bool
  | DbAction.commit => true
  | _ => false

/-- The identity data a `TvizLogger` instance fixes at construction
(logger.py:44-46): the fresh run id, the display name, and the modality. -/
structure LoggerCfg where
  runId : String
  runName : String
  modality : String

/-- A row of the `runs` table (logger.py:60-68) as inserted by
`log_hparams` (logger.py:162-165); timestamps are managed by the engine. -/
structure RunRow where
  id : String
  name : String
  runType : String
  modality : String
  config : Option Json

/-- The observable state of one logger instance: its `_config_logged` flag
and the rows its run id owns in the four tables. -/
structure LoggerState where
  configLogged : Bool
  runs : List RunRow
  steps : List StepRow
  db : DBTables
  nextRolloutId : ℕ

/-- The state of a freshly constructed logger: flag cleared and no rows yet
for its brand-new run id. -/
def initState : LoggerState :=
  { configLogged := false, runs := [], steps := [], db := ⟨[], []⟩, nextRolloutId := 1 }

/-- Embeds `log_hparams` (logger.py:155-167): a no-op when the run is
already registered, otherwise inserts the run row (a falsy config is stored
as NULL) and sets the flag. -/
def logHparams (L : LoggerCfg) (s : LoggerState) (config : Metrics) : LoggerState :=
  if s.configLogged then s
  else
    { s with
      runs := s.runs ++ [⟨L.runId, L.runName, "rl", L.modality, encodeExtras config⟩]
      configLogged := true }

/-- Embeds `log_metrics` (logger.py:169-244): auto-register with an empty
config if needed, return without touching the steps table when `step` is
None, otherwise upsert the row for (run, step). -/
def logMetricsOp (L : LoggerCfg) (s : LoggerState) (metrics : Metrics)
    (step : Option ℕ) : LoggerState :=
  let s1 := if s.configLogged then s else logHparams L s []
  match step with
  | none => s1
  | some n => { s1 with steps := upsertStep s1.steps (buildStepRow L.runId n metrics) }

/-- Embeds `log_rollouts` (logger.py:246-313): auto-register with an empty
config if needed, then run the insert trace and the final commit; the
committed tables become the new visible state. -/
def logRolloutsOp (L : LoggerCfg) (s : LoggerState) (rs : List RolloutInput)
    (st : ℕ) : LoggerState :=
  let s1 := if s.configLogged then s else logHparams L s []
  let c := runActions ⟨s1.db, s1.db, s1.nextRolloutId, 0⟩ (logRolloutsActions L.runId st rs)
  { s1 with db := c.committed, nextRolloutId := c.nextRolloutId }

/-- One caller-facing operation of the logger interface. -/
inductive Op where
  | hparams (config : Metrics)
  | metrics (m : Metrics) (step : Option ℕ)
  | rollouts (rs : List RolloutInput) (step : ℕ)

/-- Applies one operation to the logger state. -/
def applyOp (L : LoggerCfg) (s : LoggerState) : Op → LoggerState
  | Op.hparams config => logHparams L s config
  | Op.metrics m step => logMetricsOp L s m step
  | Op.rollouts rs step => logRolloutsOp L s rs step

/-- Applies a sequence of operations in order. -/
def runOps (L : LoggerCfg) (s : LoggerState) (ops : List Op) : LoggerState :=
  ops.foldl (applyOp L) s

/-- The canonical step columns extracted by `TvizClient.log_step`
(client.py:211-218) together with the leftover extras mapping
(client.py:220-222). -/
structure ClientStepCols where
  reward_mean : Option ℚ
  reward_std : Option ℚ
  loss : Option ℚ
  kl_divergence : Option ℚ
  entropy : Option ℚ
  learning_rate : Option ℚ
  extras : Metrics

/-- Embeds the metric extraction of `TvizClient.log_step` (client.py:211-222).
Python evaluates the default argument of `data.pop(key, default)` eagerly, so
in `data.pop("kl_divergence", data.pop("kl", None))` the inner pop removes
"kl" before the outer pop runs, and its value is discarded whenever
"kl_divergence" is also present; likewise for "learning_rate" / "lr".  An
input key named "extras" (a dict value, which this scalar-valued embedding
cannot carry) is not modelled. -/
def clientLogStep (metrics : Metrics) : ClientStepCols :=
  let p1 := popKey "reward_mean" metrics
  let p2 := popKey "reward_std" p1.2
  let p3 := popKey "loss" p2.2
  let pKl := popKey "kl" p3.2
  let pKlDiv := popKey "kl_divergence" pKl.2
  let kl := match pKlDiv.1 with
    | some v => some v
    | none => pKl.1
  let p4 := popKey "entropy" pKlDiv.2
  let pLr := popKey "lr" p4.2
  let pLrMain := popKey "learning_rate" pLr.2
  let lr := match pLrMain.1 with
    | some v => some v
    | none => pLr.1
  { reward_mean := p1.1
    reward_std := p2.1
    loss := p3.1
    kl_divergence := kl
    entropy := p4.1
    learning_rate := lr
    extras := pLrMain.2 }

/-- A concrete trajectory entry with the given reward, used to instantiate
the general theorems. -/
def sampleTraj (q : ℚ) : TrajInput :=
  ⟨some 0, some q, some "ans", some [5, 6], some [-1/2], none, none, none, some [q]⟩

/-- A concrete trajectory entry whose reward field is missing. -/
def noRewardTraj : TrajInput :=
  ⟨some 1, none, some "ans2", none, none, none, none, none, none⟩

/-- A concrete text-modality rollout with two trajectories. -/
def sampleRollout : RolloutInput :=
  ⟨some 0, none, none, none, none, none, some "Q", some [1, 2, 3],
   some [sampleTraj 1, sampleTraj 0]⟩

/-- A concrete rollout whose trajectory list is missing. -/
def emptyRollout : RolloutInput :=
  ⟨some 1, none, none, none, none, none, some "Q2", none, none⟩

/-- A concrete logger identity used to instantiate the general theorems. -/
def sampleCfg : LoggerCfg := ⟨"run0001", "demo", "text"⟩

/-- A concrete already-registered logger state. -/
def registeredState : LoggerState :=
  { configLogged := true
    runs := [⟨"run0001", "demo", "rl", "text", none⟩]
    steps := []
    db := ⟨[], []⟩
    nextRolloutId := 1 }

/-- A concrete operation sequence exercising auto-registration followed by
repeated explicit registration. -/
def sampleOps : List Op :=
  [Op.metrics [("loss", 1/2)] (some 0),
   Op.hparams [("lr", 1/100)],
   Op.hparams [],
   Op.rollouts [sampleRollout] 0]

/-- A concrete fresh connection: empty committed and pending views. -/
def freshConn : Conn := ⟨⟨[], []⟩, ⟨[], []⟩, 1, 0⟩

/-- The synonym lists popped before the one of `total_ac_tokens`. -/
def keysBeforeTat : List (List String) := fieldKeyLists.take 8

/-- The synonym lists popped after the one of `total_ac_tokens`. -/
def keysAfterTat : List (List String) := fieldKeyLists.drop 9

/-- The synonym lists popped before the one of `total_turns`. -/
def keysBeforeTt : List (List String) := fieldKeyLists.take 9

/-- The synonym lists popped after the one of `total_turns`. -/
def keysAfterTt : List (List String) := fieldKeyLists.drop 10

section DictLemmas

theorem lookupKey_eraseKey_self (k : String) (d : Metrics) :
    lookupKey k (eraseKey k d) = none := by
  induction d with
  | nil => rfl
  | cons kv rest ih =>
      obtain ⟨k', v⟩ := kv
      by_cases h : k' = k
      · simp [eraseKey, h, ih]
      · simp [eraseKey, lookupKey, h, ih]

theorem lookupKey_eraseKey_ne (k k' : String) (d : Metrics) (h : k ≠ k') :
    lookupKey k (eraseKey k' d) = lookupKey k d := by
  induction d with
  | nil => rfl
  | cons kv rest ih =>
      obtain ⟨k₀, v⟩ := kv
      by_cases h0 : k₀ = k'
      · subst h0
        simp [eraseKey, lookupKey, Ne.symm h, ih]
      · by_cases h1 : k₀ = k
        · subst h1
          simp [eraseKey, lookupKey, h, ih]
        · simp [eraseKey, lookupKey, h0, h1, ih]

theorem firstPresent_eq_some {d : Metrics} {cs : List String} {K : String}
    (h : firstPresent d cs = some K) : K ∈ cs ∧ (lookupKey K d).isSome := by
  induction cs with
  | nil => simp [firstPresent] at h
  | cons c cs ih =>
      by_cases hc : (lookupKey c d).isSome
      · simp [firstPresent, hc] at h
        subst h
        exact ⟨List.mem_cons_self _ _, hc⟩
      · simp [firstPresent, hc] at h
        obtain ⟨hmem, hs⟩ := ih h
        exact ⟨List.mem_cons_of_mem _ hmem, hs⟩

theorem firstPresent_isSome {d : Metrics} {cs : List String} {K : String}
    (hmem : K ∈ cs) (hs : (lookupKey K d).isSome) :
    (firstPresent d cs).isSome := by
  induction cs with
  | nil => cases hmem
  | cons c cs ih =>
      by_cases hc : (lookupKey c d).isSome
      · simp [firstPresent, hc]
      · rcases List.mem_cons.mp hmem with h | h
        · subst h; exact absurd hs hc
        · simpa [firstPresent, hc] using ih h

theorem popMetric_snd_lookup_none {keys : List String} {d : Metrics} {K : String}
    (h : lookupKey K d = none) : lookupKey K (popMetric keys d).2 = none := by
  unfold popMetric
  cases hfp : firstPresent d (candKeys keys) with
  | none => simpa using h
  | some k =>
      by_cases hk : K = k
      · subst hk; simp [lookupKey_eraseKey_self]
      · simp [lookupKey_eraseKey_ne K k d hk, h]

theorem popMetric_snd_lookup_not_cand {keys : List String} {d : Metrics} {K : String}
    (h : K ∉ candKeys keys) : lookupKey K (popMetric keys d).2 = lookupKey K d := by
  unfold popMetric
  cases hfp : firstPresent d (candKeys keys) with
  | none => simp
  | some k =>
      have hk : k ∈ candKeys keys := (firstPresent_eq_some hfp).1
      have hne : K ≠ k := fun he => h (he ▸ hk)
      simp [lookupKey_eraseKey_ne K k d hne]

theorem extractAll_snd_lookup_none {L : List (List String)} {d : Metrics} {K : String}
    (h : lookupKey K d = none) : lookupKey K (extractAll L d).2 = none := by
  induction L generalizing d with
  | nil => simpa using h
  | cons ks rest ih =>
      simp only [extractAll]
      exact ih (popMetric_snd_lookup_none h)

theorem extractAll_snd_lookup_not_mem {L : List (List String)} {d : Metrics} {K : String}
    (h : ∀ ks ∈ L, K ∉ candKeys ks) :
    lookupKey K (extractAll L d).2 = lookupKey K d := by
  induction L generalizing d with
  | nil => rfl
  | cons ks rest ih =>
      simp only [extractAll]
      rw [ih (fun ks' h' => h ks' (List.mem_cons_of_mem _ h'))]
      exact popMetric_snd_lookup_not_cand (h ks (List.mem_cons_self _ _))

theorem extractAll_append (L1 L2 : List (List String)) (d : Metrics) :
    extractAll (L1 ++ L2) d =
      ((extractAll L1 d).1 ++ (extractAll L2 (extractAll L1 d).2).1,
       (extractAll L2 (extractAll L1 d).2).2) := by
  induction L1 generalizing d with
  | nil => simp [extractAll]
  | cons ks rest ih => simp [extractAll, ih]

theorem extractAll_fst_length (L : List (List String)) (d : Metrics) :
    (extractAll L d).1.length = L.length := by
  induction L generalizing d with
  | nil => rfl
  | cons ks rest ih => simp [extractAll, ih]

theorem getD_append_length (l1 l2 : List (Option ℚ)) :
    (l1 ++ l2).getD l1.length none = l2.getD 0 none := by
  induction l1 with
  | nil => rfl
  | cons x l1 ih => simpa using ih

theorem take_get_drop {α : Type _} :
    ∀ (l : List α) (i : ℕ) (h : i < l.length),
      l = l.take i ++ l.get ⟨i, h⟩ :: l.drop (i + 1)
  | [], i, h => absurd h (by simp)
  | x :: xs, 0, _ => rfl
  | x :: xs, i + 1, h => by
      have hx : i < xs.length := Nat.lt_of_succ_lt_succ (by simpa using h)
      have hxs := take_get_drop xs i hx
      simp only [List.take, List.drop, List.get, List.cons_append]
      exact congrArg (x :: ·) hxs

theorem cand_mem_ns {k p : String} {ks : List String}
    (hk : k ∈ ks) (hp : p ∈ nsList) : p ++ k ∈ candKeys ks := by
  induction ks with
  | nil => cases hk
  | cons k' ks ih =>
      rcases List.mem_cons.mp hk with h | h
      · subst h
        have : p ++ k ∈ nsList.map (fun q => q ++ k) := List.mem_map_of_mem _ hp
        exact List.mem_append_left _ (List.mem_cons_of_mem _ this)
      · exact List.mem_append_right _ (ih h)

theorem cand_mem_cases {K : String} {ks : List String} (h : K ∈ candKeys ks) :
    K ∈ ks ∨ ∃ p ∈ nsList, ∃ k ∈ ks, K = p ++ k := by
  induction ks with
  | nil => cases h
  | cons k' ks ih =>
      rcases List.mem_append.mp h with h1 | h1
      · rcases List.mem_cons.mp h1 with h2 | h2
        · exact Or.inl (h2 ▸ List.mem_cons_self _ _)
        · obtain ⟨p, hp, he⟩ := List.mem_map.mp h2
          exact Or.inr ⟨p, hp, k', List.mem_cons_self _ _, he.symm⟩
      · rcases ih h1 with h2 | ⟨p, hp, k, hk, he⟩
        · exact Or.inl (List.mem_cons_of_mem _ h2)
        · exact Or.inr ⟨p, hp, k, List.mem_cons_of_mem _ hk, he⟩

end DictLemmas

theorem filter_not_filter {α : Type _} (p : α → Bool) (l : List α) :
    (l.filter (fun a => !(p a))).filter p = [] := by
  induction l with
  | nil => rfl
  | cons x l ih =>
      by_cases hx : p x
      · simp [List.filter, hx, ih]
      · simp at hx
        simp [List.filter, hx, ih]

theorem rowsFor_upsertStep (tbl : List StepRow) (row : StepRow) :
    rowsFor (upsertStep tbl row) row.run_id row.step = [row] := by
  unfold rowsFor upsertStep
  rw [List.filter_append, filter_not_filter]
  simp [sameKey]

section FoldMax

theorem foldl_max_mem : ∀ (xs : List ℚ) (x : ℚ), xs.foldl max x = x ∨ xs.foldl max x ∈ xs
  | [], x => Or.inl rfl
  | y :: ys, x => by
      rcases foldl_max_mem ys (max x y) with h | h
      · rcases max_choice x y with hm | hm
        · refine Or.inl ?_
          simp only [List.foldl]
          rw [h, hm]
        · refine Or.inr ?_
          simp only [List.foldl]
          rw [h, hm]
          exact List.mem_cons_self _ _
      · exact Or.inr (List.mem_cons_of_mem _ (by simpa [List.foldl] using h))

theorem le_foldl_max : ∀ (xs : List ℚ) (x : ℚ), ∀ y ∈ x :: xs, y ≤ xs.foldl max x
  | [], x, y, hy => by simp at hy; simp [hy]
  | z :: zs, x, y, hy => by
      rcases List.mem_cons.mp hy with h | h
      · subst h
        have := le_foldl_max zs (max y z) (max y z) (List.mem_cons_self _ _)
        exact le_trans (le_max_left y z) (by simpa [List.foldl] using this)
      · rcases List.mem_cons.mp h with h1 | h1
        · subst h1
          have := le_foldl_max zs (max x y) (max x y) (List.mem_cons_self _ _)
          exact le_trans (le_max_right x y) (by simpa [List.foldl] using this)
        · have := le_foldl_max zs (max x z) y (List.mem_cons_of_mem _ h1)
          simpa [List.foldl] using this

end FoldMax

section ConnLemmas

theorem applyAction_committed (c : Conn) (a : DbAction) (h : isCommitA a = false) :
    (applyAction c a).committed = c.committed := by
  cases a with
  | insertRollout row => rfl
  | insertTraj t => rfl
  | commit => simp [isCommitA] at h

theorem runActions_committed (as : List DbAction) (c : Conn)
    (h : ∀ a ∈ as, isCommitA a = false) :
    (runActions c as).committed = c.committed := by
  induction as generalizing c with
  | nil => rfl
  | cons a as ih =>
      have h1 : isCommitA a = false := h a (List.mem_cons_self _ _)
      have h2 : ∀ a' ∈ as, isCommitA a' = false :=
        fun a' ha' => h a' (List.mem_cons_of_mem _ ha')
      calc (runActions c (a :: as)).committed
          = (runActions (applyAction c a) as).committed := rfl
        _ = (applyAction c a).committed := ih (applyAction c a) h2
        _ = c.committed := applyAction_committed c a h1

theorem rolloutActions_no_commit (rid : String) (st : ℕ) (rs : List RolloutInput) :
    ∀ a ∈ rolloutActions rid st rs, isCommitA a = false := by
  induction rs with
  | nil => intro a ha; cases ha
  | cons r rs ih =>
      intro a ha
      rcases List.mem_cons.mp ha with h | h
      · subst h; rfl
      · rcases List.mem_append.mp h with h1 | h1
        · obtain ⟨t, _, he⟩ := List.mem_map.mp h1
          subst he; rfl
        · exact ih a h1

theorem runActions_trajActs (ts : List TrajInput) (c : Conn) :
    runActions c (ts.map (fun t => DbAction.insertTraj (mkTrajData t))) =
      { c with pending := ⟨c.pending.rollouts,
          c.pending.trajectories ++ ts.map (fun t => (c.lastRowId, mkTrajData t))⟩ } := by
  induction ts generalizing c with
  | nil => simp [runActions]
  | cons t ts ih =>
      simp only [List.map_cons]
      have : runActions c (DbAction.insertTraj (mkTrajData t) ::
          ts.map (fun t => DbAction.insertTraj (mkTrajData t))) =
          runActions (applyAction c (DbAction.insertTraj (mkTrajData t)))
            (ts.map (fun t => DbAction.insertTraj (mkTrajData t))) := rfl
      rw [this, ih]
      simp [applyAction]

theorem runActions_rolloutActions (rid : String) (st : ℕ) :
    ∀ (rs : List RolloutInput) (c : Conn),
      (runActions c (rolloutActions rid st rs)).committed = c.committed ∧
      (runActions c (rolloutActions rid st rs)).pending.rollouts =
        c.pending.rollouts ++ expectedRollouts c.nextRolloutId rid st rs ∧
      (runActions c (rolloutActions rid st rs)).pending.trajectories =
        c.pending.trajectories ++ expectedTrajs c.nextRolloutId rs
  | [], c => by simp [runActions, rolloutActions, expectedRollouts, expectedTrajs]
  | r :: rs, c => by
      have hstep : runActions c (rolloutActions rid st (r :: rs)) =
          runActions
            (runActions (applyAction c (DbAction.insertRollout (mkRolloutRow rid st r)))
              ((getTrajs r).map (fun t => DbAction.insertTraj (mkTrajData t))))
            (rolloutActions rid st rs) := by
        simp only [rolloutActions, runActions, List.foldl_cons, List.foldl_append]
      set c1 := applyAction c (DbAction.insertRollout (mkRolloutRow rid st r)) with hc1
      set c2 := runActions c1 ((getTrajs r).map (fun t => DbAction.insertTraj (mkTrajData t)))
        with hc2
      have hmid : c2 = { c1 with pending := ⟨c1.pending.rollouts,
          c1.pending.trajectories ++ (getTrajs r).map (fun t => (c1.lastRowId, mkTrajData t))⟩ } :=
        runActions_trajActs _ _
      obtain ⟨ih1, ih2, ih3⟩ := runActions_rolloutActions rid st rs c2
      refine ⟨?_, ?_, ?_⟩
      · rw [hstep, ih1, hmid, hc1]
        rfl
      · rw [hstep, ih2, hmid]
        have hroll : c1.pending.rollouts =
            c.pending.rollouts ++ [(c.nextRolloutId, mkRolloutRow rid st r)] := rfl
        have hnext1 : c1.nextRolloutId = c.nextRolloutId + 1 := rfl
        simp only [hnext1, hroll, expectedRollouts, List.append_assoc, List.singleton_append]
      · rw [hstep, ih3, hmid]
        have htrajs : c1.pending.trajectories = c.pending.trajectories := rfl
        have hlast : c1.lastRowId = c.nextRolloutId := rfl
        have hnext1 : c1.nextRolloutId = c.nextRolloutId + 1 := rfl
        simp only [hnext1, htrajs, hlast, expectedTrajs, List.append_assoc]

theorem expectedRollouts_mem (rid : String) (st : ℕ) :
    ∀ (rs : List RolloutInput) (n i : ℕ) (hi : i < rs.length),
      (n + i, mkRolloutRow rid st (rs.get ⟨i, hi⟩)) ∈ expectedRollouts n rid st rs
  | r :: rs, n, 0, _ => by simp [expectedRollouts]
  | r :: rs, n, i + 1, hi => by
      have hx : i < rs.length := Nat.lt_of_succ_lt_succ (by simpa using hi)
      have := expectedRollouts_mem rid st rs (n + 1) i hx
      have harith : n + 1 + i = n + (i + 1) := by omega
      rw [harith] at this
      exact List.mem_cons_of_mem _ (by simpa using this)

theorem expectedTrajs_mem :
    ∀ (rs : List RolloutInput) (n i : ℕ) (hi : i < rs.length),
      getTrajs (rs.get ⟨i, hi⟩) ≠ [] →
      ∃ t ∈ expectedTrajs n rs, t.1 = n + i
  | r :: rs, n, 0, _, hne => by
      cases hts : getTrajs r with
      | nil => exact absurd hts (by simpa using hne)
      | cons t0 ts =>
          refine ⟨(n, mkTrajData t0), ?_, by simp⟩
          simp only [expectedTrajs, hts, List.map_cons]
          exact List.mem_append_left _ (List.mem_cons_self _ _)
  | r :: rs, n, i + 1, hi, hne => by
      have hx : i < rs.length := Nat.lt_of_succ_lt_succ (by simpa using hi)
      obtain ⟨t, ht, hid⟩ := expectedTrajs_mem rs (n + 1) i hx (by simpa using hne)
      refine ⟨t, List.mem_append_right _ ht, by omega⟩

end ConnLemmas

section RegistryLemmas

theorem applyOp_runs_invariant (L : LoggerCfg) (s : LoggerState) (op : Op)
    (h : s.runs.length ≤ 1 ∧ (s.configLogged = false → s.runs = [])) :
    (applyOp L s op).runs.length ≤ 1 ∧
      ((applyOp L s op).configLogged = false → (applyOp L s op).runs = []) := by
  obtain ⟨h1, h2⟩ := h
  have hreg : ∀ c, (logHparams L s c).runs.length ≤ 1 ∧
      ((logHparams L s c).configLogged = false → (logHparams L s c).runs = []) := by
    intro c
    by_cases hf : s.configLogged
    · simpa [logHparams, hf] using And.intro h1 h2
    · have : s.runs = [] := h2 (by simpa using hf)
      simp [logHparams, hf, this]
  cases op with
  | hparams c => exact hreg c
  | metrics m step =>
      cases step with
      | none =>
          by_cases hf : s.configLogged
          · simpa [applyOp, logMetricsOp, hf] using And.intro h1 h2
          · simpa [applyOp, logMetricsOp, hf] using hreg []
      | some n =>
          by_cases hf : s.configLogged
          · simpa [applyOp, logMetricsOp, hf] using And.intro h1 h2
          · simpa [applyOp, logMetricsOp, hf] using hreg []
  | rollouts rs step =>
      by_cases hf : s.configLogged
      · simpa [applyOp, logRolloutsOp, hf] using And.intro h1 h2
      · simpa [applyOp, logRolloutsOp, hf] using hreg []

theorem runOps_runs_invariant (L : LoggerCfg) (ops : List Op) (s : LoggerState)
    (h : s.runs.length ≤ 1 ∧ (s.configLogged = false → s.runs = [])) :
    (runOps L s ops).runs.length ≤ 1 := by
  induction ops generalizing s with
  | nil => exact h.1
  | cons op ops ih => exact ih (applyOp L s op) (applyOp_runs_invariant L s op h)

end RegistryLemmas

section Disjointness

set_option maxHeartbeats 2000000 in
/-- No candidate key of one canonical field is also a candidate key of a
different canonical field: the synonym lists are pairwise disjoint, no
synonym starts with a known namespace, and the namespaces are distinct. -/
theorem cand_disjoint_take :
    ∀ i : Fin fieldKeyLists.length, ∀ ks ∈ fieldKeyLists.take i.1,
      ∀ x ∈ candKeys (fieldKeyLists.get i), x ∉ candKeys ks := by decide

end Disjointness

section MoreHelpers

theorem take_append_small {α : Type _} :
    ∀ (l1 l2 : List α) (k : ℕ), k ≤ l1.length → (l1 ++ l2).take k = l1.take k
  | _, _, 0, _ => by simp
  | [], l2, k + 1, h => by simp at h
  | x :: l1, l2, k + 1, h => by
      simp only [List.cons_append, List.take]
      exact congrArg (x :: ·) (take_append_small l1 l2 k (by simpa using h))

theorem mem_take_mem {α : Type _} :
    ∀ (l : List α) (k : ℕ) (a : α), a ∈ l.take k → a ∈ l
  | _, 0, a, h => by simp at h
  | [], k + 1, a, h => by simp at h
  | x :: l, k + 1, a, h => by
      simp only [List.take] at h
      rcases List.mem_cons.mp h with h1 | h1
      · exact h1 ▸ List.mem_cons_self _ _
      · exact List.mem_cons_of_mem _ (mem_take_mem l k a h1)

theorem firstPresent_eq_none {d : Metrics} {cs : List String}
    (h : ∀ k ∈ cs, lookupKey k d = none) : firstPresent d cs = none := by
  induction cs with
  | nil => rfl
  | cons c cs ih =>
      have hc : lookupKey c d = none := h c (List.mem_cons_self _ _)
      simp only [firstPresent, hc]
      exact ih (fun k hk => h k (List.mem_cons_of_mem _ hk))

theorem extract_exact_head (L1 L2 : List (List String)) (k : String) (ks' : List String)
    (d : Metrics) (v : ℚ)
    (hsurv : ∀ ks ∈ L1, k ∉ candKeys ks)
    (hv : lookupKey k d = some v) :
    (extractAll (L1 ++ (k :: ks') :: L2) d).1.getD L1.length none = some v := by
  rw [extractAll_append]
  have hlen : L1.length = (extractAll L1 d).1.length := (extractAll_fst_length _ _).symm
  rw [hlen, getD_append_length]
  have hd1 : lookupKey k (extractAll L1 d).2 = some v := by
    rw [extractAll_snd_lookup_not_mem hsurv]
    exact hv
  have hfp : firstPresent (extractAll L1 d).2 (candKeys (k :: ks')) = some k := by
    simp only [candKeys, List.cons_append, firstPresent, hd1]
    rfl
  simp only [extractAll, popMetric, hfp, List.getD]
  simp [hd1]

theorem extract_absent (L1 L2 : List (List String)) (ks' : List String) (d : Metrics)
    (hall : ∀ k ∈ candKeys ks', lookupKey k d = none) :
    (extractAll (L1 ++ ks' :: L2) d).1.getD L1.length none = none := by
  rw [extractAll_append]
  have hlen : L1.length = (extractAll L1 d).1.length := (extractAll_fst_length _ _).symm
  rw [hlen, getD_append_length]
  have hd1 : ∀ k ∈ candKeys ks', lookupKey k (extractAll L1 d).2 = none :=
    fun k hk => extractAll_snd_lookup_none (hall k hk)
  have hfp : firstPresent (extractAll L1 d).2 (candKeys ks') = none :=
    firstPresent_eq_none hd1
  simp [extractAll, popMetric, hfp, List.getD]

theorem decodeNums_map_num (l : List ℚ) : decodeNums (l.map Json.num) = some l := by
  induction l with
  | nil => rfl
  | cons q l ih => simp [decodeNums, decodeNum, ih]

theorem extractAll_append_fst (L1 L2 : List (List String)) (d : Metrics) :
    (extractAll (L1 ++ L2) d).1 =
      (extractAll L1 d).1 ++ (extractAll L2 (extractAll L1 d).2).1 := by
  rw [extractAll_append]

theorem extractAll_append_snd (L1 L2 : List (List String)) (d : Metrics) :
    (extractAll (L1 ++ L2) d).2 = (extractAll L2 (extractAll L1 d).2).2 := by
  rw [extractAll_append]

theorem getD_append_of_length (l1 l2 : List (Option ℚ)) (m : ℕ) (h : l1.length = m) :
    (l1 ++ l2).getD m none = l2.getD 0 none := by
  rw [← h]
  exact getD_append_length l1 l2

end MoreHelpers

/-- C1: for every rollout with a non-empty trajectory list, the inserted
rollout row's mean_reward is the arithmetic mean of the trajectories'
rewards (the value m with m * count = sum) and best_reward is their maximum
(a reward of the list that bounds all of them); for an empty or missing
trajectory list both aggregates are absent, not zero. -/
theorem rollout_mean_best (rid : String) (st : ℕ) (r : RolloutInput) :
    (mkRolloutRow rid st r).mean_reward = meanRewardOf (getTrajs r) ∧
    (mkRolloutRow rid st r).best_reward = bestRewardOf (getTrajs r) ∧
    (getTrajs r ≠ [] →
      (∃ b, bestRewardOf (getTrajs r) = some b ∧ b ∈ rewardsOf (getTrajs r) ∧
        ∀ x ∈ rewardsOf (getTrajs r), x ≤ b) ∧
      (∃ m, meanRewardOf (getTrajs r) = some m ∧
        m * ((rewardsOf (getTrajs r)).length : ℚ) = (rewardsOf (getTrajs r)).sum)) ∧
    ((r.trajectories = none ∨ r.trajectories = some []) →
      meanRewardOf (getTrajs r) = none ∧ bestRewardOf (getTrajs r) = none) := by
  refine ⟨rfl, rfl, ?_, ?_⟩
  · intro hne
    have hrne : rewardsOf (getTrajs r) ≠ [] := by
      simp [rewardsOf, hne]
    cases hr : rewardsOf (getTrajs r) with
    | nil => exact absurd hr hrne
    | cons x xs =>
        constructor
        · refine ⟨xs.foldl max x, by simp [bestRewardOf, hr], ?_, ?_⟩
          · rcases foldl_max_mem xs x with h | h
            · rw [h]; exact List.mem_cons_self _ _
            · exact List.mem_cons_of_mem _ h
          · intro y hy
            exact le_foldl_max xs x y hy
        · refine ⟨(x :: xs).sum / (((x :: xs).length : ℕ) : ℚ), ?_, ?_⟩
          · simp [meanRewardOf, hr]
          · have hpos : (((x :: xs).length : ℕ) : ℚ) ≠ 0 := by
              simp only [List.length_cons]
              exact_mod_cast Nat.succ_ne_zero xs.length
            exact div_mul_cancel₀ _ hpos
  · intro hemp
    have hnil : getTrajs r = [] := by
      rcases hemp with h | h <;> simp [getTrajs, h]
    simp [meanRewardOf, bestRewardOf, rewardsOf, hnil]

/-- Witness for C1 at a two-trajectory rollout (rewards 1 and 0) and at a
rollout with a missing trajectory list. -/
theorem rollout_mean_best_witness :
    getTrajs sampleRollout ≠ [] ∧
    (∃ b, bestRewardOf (getTrajs sampleRollout) = some b ∧
      b ∈ rewardsOf (getTrajs sampleRollout) ∧
      ∀ x ∈ rewardsOf (getTrajs sampleRollout), x ≤ b) ∧
    (∃ m, meanRewardOf (getTrajs sampleRollout) = some m ∧
      m * ((rewardsOf (getTrajs sampleRollout)).length : ℚ) =
        (rewardsOf (getTrajs sampleRollout)).sum) ∧
    emptyRollout.trajectories = none ∧
    meanRewardOf (getTrajs emptyRollout) = none ∧
    bestRewardOf (getTrajs emptyRollout) = none := by
  have h1 := (rollout_mean_best "r" 0 sampleRollout).2.2.1 (by decide)
  have h2 := (rollout_mean_best "r" 0 emptyRollout).2.2.2 (Or.inl rfl)
  exact ⟨by decide, h1.1, h1.2, rfl, h2.1, h2.2⟩

/-- C7: a trajectory entry whose reward field is missing is not rejected:
its row is inserted with reward 0, every sibling entry is still mapped to a
row, and the reward list feeding the rollout aggregates carries a 0 at its
position, so it adds nothing to the sum while still counting in the mean's
denominator, and both aggregates stay defined. -/
theorem missing_reward_tolerated (pre post : List TrajInput) (t : TrajInput)
    (ht : t.reward = none) :
    (mkTrajData t).reward = 0 ∧
    (pre ++ t :: post).map mkTrajData =
      pre.map mkTrajData ++ mkTrajData t :: post.map mkTrajData ∧
    ((pre ++ t :: post).map mkTrajData).length = pre.length + post.length + 1 ∧
    rewardsOf (pre ++ t :: post) = rewardsOf pre ++ 0 :: rewardsOf post ∧
    (rewardsOf (pre ++ t :: post)).sum = (rewardsOf pre).sum + (rewardsOf post).sum ∧
    (rewardsOf (pre ++ t :: post)).length = pre.length + post.length + 1 ∧
    meanRewardOf (pre ++ t :: post) =
      some ((rewardsOf (pre ++ t :: post)).sum /
        ((rewardsOf (pre ++ t :: post)).length : ℚ)) ∧
    (bestRewardOf (pre ++ t :: post)).isSome := by
  have hr0 : (mkTrajData t).reward = 0 := by simp [mkTrajData, ht]
  have hrw : rewardsOf (pre ++ t :: post) = rewardsOf pre ++ 0 :: rewardsOf post := by
    simp [rewardsOf, ht]
  have hne : rewardsOf (pre ++ t :: post) ≠ [] := by
    rw [hrw]
    intro h
    exact absurd (List.append_eq_nil.mp h).2 (by simp)
  refine ⟨hr0, by simp, by simp; omega, hrw, ?_, ?_, ?_, ?_⟩
  · rw [hrw]; simp
  · rw [hrw]; simp [rewardsOf]; omega
  · simp [meanRewardOf, hne]
  · cases hb : rewardsOf (pre ++ t :: post) with
    | nil => exact absurd hb hne
    | cons x xs => simp [bestRewardOf, hb]

/-- Witness for C7 at a call with one rewarded sibling before and one after
the entry that lacks a reward. -/
theorem missing_reward_tolerated_witness :
    noRewardTraj.reward = none ∧
    (mkTrajData noRewardTraj).reward = 0 ∧
    rewardsOf ([sampleTraj 1] ++ noRewardTraj :: [sampleTraj 0]) =
      rewardsOf [sampleTraj 1] ++ 0 :: rewardsOf [sampleTraj 0] ∧
    (rewardsOf ([sampleTraj 1] ++ noRewardTraj :: [sampleTraj 0])).sum =
      (rewardsOf [sampleTraj 1]).sum + (rewardsOf [sampleTraj 0]).sum ∧
    (([sampleTraj 1] ++ noRewardTraj :: [sampleTraj 0]).map mkTrajData).length = 3 ∧
    (bestRewardOf ([sampleTraj 1] ++ noRewardTraj :: [sampleTraj 0])).isSome := by
  have h := missing_reward_tolerated [sampleTraj 1] [sampleTraj 0] noRewardTraj rfl
  exact ⟨rfl, h.1, h.2.2.2.1, h.2.2.2.2.1, h.2.2.1, h.2.2.2.2.2.2.2⟩

/-- C5 counterexample: an empty list supplied in a list-valued field is
falsy in Python, so `json.dumps(x) if x else None` stores NULL; decoding the
stored value therefore does not yield the original empty list. -/
theorem list_roundtrip_empty_cex :
    encodeNumList (some ([] : List ℚ)) = none ∧
    decodeNumList (encodeNumList (some ([] : List ℚ))) ≠ some [] := by
  exact ⟨rfl, by decide⟩

/-- C5 (amended): for every non-empty list supplied in a list-valued field,
encoding it for storage and then decoding the stored value yields the
original list, element order and numeric values preserved. -/
theorem list_roundtrip_nonempty (l : List ℚ) (h : l ≠ []) :
    decodeNumList (encodeNumList (some l)) = some l := by
  simp only [encodeNumList, if_neg h]
  simp [decodeNumList, decodeNums_map_num]

/-- Witness for C5 on the two-element list. -/
theorem list_roundtrip_nonempty_witness :
    ([1, 2] : List ℚ) ≠ [] ∧
    decodeNumList (encodeNumList (some ([1, 2] : List ℚ))) = some [1, 2] :=
  ⟨by decide, list_roundtrip_nonempty [1, 2] (by decide)⟩

/-- C2: logging metrics twice for the same (run, step) leaves exactly one
steps row for that key, and that row is built entirely from the second
call's mapping — INSERT OR REPLACE under UNIQUE(run_id, step) deletes the
first row, so nothing from the first call survives. -/
theorem step_last_write_wins (L : LoggerCfg) (s : LoggerState) (m1 m2 : Metrics) (n : ℕ) :
    rowsFor (logMetricsOp L (logMetricsOp L s m1 (some n)) m2 (some n)).steps L.runId n =
      [buildStepRow L.runId n m2] := by
  have hsteps : ∀ (s' : LoggerState) (m : Metrics),
      (logMetricsOp L s' m (some n)).steps = upsertStep s'.steps (buildStepRow L.runId n m) := by
    intro s' m
    by_cases hf : s'.configLogged <;> simp [logMetricsOp, logHparams, hf]
  rw [hsteps, hsteps]
  have h := rowsFor_upsertStep (upsertStep s.steps (buildStepRow L.runId n m1))
    (buildStepRow L.runId n m2)
  have hrid : (buildStepRow L.runId n m2).run_id = L.runId := rfl
  have hstep : (buildStepRow L.runId n m2).step = n := rfl
  rw [hrid, hstep] at h
  exact h

/-- C3 (spec intent, violated by client.py): in `TvizClient.log_step` the
default argument of `data.pop("kl_divergence", data.pop("kl", None))` is
evaluated eagerly, so with both "kl_divergence" and "kl" present the value
bound to "kl" (here 2) is removed and discarded: it reaches no canonical
column and no overflow key.  The logger-side normalizer (`pop_metric`) keeps
"kl" in the overflow mapping on the same input. -/
theorem client_synonym_value_dropped :
    clientLogStep [("kl_divergence", 1), ("kl", 2)] =
      { reward_mean := none, reward_std := none, loss := none,
        kl_divergence := some 1, entropy := none, learning_rate := none,
        extras := [] } ∧
    (normalizeMetrics [("kl_divergence", 1), ("kl", 2)]).1.getD 3 none = some 1 ∧
    (normalizeMetrics [("kl_divergence", 1), ("kl", 2)]).2 = [("kl", 2)] := by
  exact ⟨rfl, rfl, rfl⟩

/-- C10: calling log_metrics with step None touches neither the steps table
nor the rollout tables; it only auto-registers the run (with a NULL config)
when the instance was not yet registered, and is a complete no-op on an
already-registered instance — the supplied metrics are discarded. -/
theorem metrics_without_step_noop (L : LoggerCfg) (s : LoggerState) (m : Metrics) :
    (logMetricsOp L s m none).steps = s.steps ∧
    (logMetricsOp L s m none).db = s.db ∧
    (logMetricsOp L s m none).configLogged = true ∧
    (s.configLogged = true → logMetricsOp L s m none = s) ∧
    (s.configLogged = false →
      (logMetricsOp L s m none).runs =
        s.runs ++ [⟨L.runId, L.runName, "rl", L.modality, none⟩]) := by
  by_cases hf : s.configLogged
  · refine ⟨?_, ?_, ?_, ?_, ?_⟩ <;>
      simp [logMetricsOp, logHparams, hf]
  · refine ⟨?_, ?_, ?_, ?_, ?_⟩ <;>
      simp [logMetricsOp, logHparams, hf, encodeExtras]

/-- Witness for C10 on a fresh (unregistered) instance and on a registered
one. -/
theorem metrics_without_step_noop_witness :
    (logMetricsOp sampleCfg initState [("loss", 1)] none).steps = initState.steps ∧
    (logMetricsOp sampleCfg initState [("loss", 1)] none).runs =
      initState.runs ++ [⟨"run0001", "demo", "rl", "text", none⟩] ∧
    logMetricsOp sampleCfg registeredState [("loss", 1)] none = registeredState := by
  have h1 := metrics_without_step_noop sampleCfg initState [("loss", 1)]
  have h2 := metrics_without_step_noop sampleCfg registeredState [("loss", 1)]
  exact ⟨h1.1, h1.2.2.2.2 rfl, h2.2.2.2.1 rfl⟩

/-- C8: one logger instance creates at most one runs row over any operation
sequence; log_hparams on a registered instance is a state no-op; and the
first log_metrics or log_rollouts on a fresh instance auto-registers the run
with no stored config (NULL), without rejecting the call. -/
theorem run_registered_at_most_once (L : LoggerCfg) :
    (∀ ops : List Op, (runOps L initState ops).runs.length ≤ 1) ∧
    (∀ (s : LoggerState) (c : Metrics), s.configLogged = true → logHparams L s c = s) ∧
    (∀ (m : Metrics) (st : Option ℕ),
      (logMetricsOp L initState m st).runs =
        [⟨L.runId, L.runName, "rl", L.modality, none⟩]) ∧
    (∀ (rs : List RolloutInput) (st : ℕ),
      (logRolloutsOp L initState rs st).runs =
        [⟨L.runId, L.runName, "rl", L.modality, none⟩]) := by
  refine ⟨?_, ?_, ?_, ?_⟩
  · intro ops
    exact runOps_runs_invariant L ops initState ⟨by simp [initState], fun _ => rfl⟩
  · intro s c h
    simp [logHparams, h]
  · intro m st
    cases st <;> simp [logMetricsOp, logHparams, initState, encodeExtras]
  · intro rs st
    simp [logRolloutsOp, logHparams, initState, encodeExtras]

/-- Witness for C8 on a concrete operation sequence (auto-registration via
log_metrics, then two explicit log_hparams calls, then log_rollouts) and a
concrete registered state. -/
theorem run_registered_at_most_once_witness :
    (runOps sampleCfg initState sampleOps).runs.length ≤ 1 ∧
    registeredState.configLogged = true ∧
    logHparams sampleCfg registeredState [("lr", 1)] = registeredState ∧
    (logMetricsOp sampleCfg initState [("loss", 1)] (some 2)).runs =
      [⟨"run0001", "demo", "rl", "text", none⟩] := by
  have h := run_registered_at_most_once sampleCfg
  exact ⟨h.1 sampleOps, rfl, h.2.1 registeredState [("lr", 1)] rfl,
    h.2.2.1 [("loss", 1)] (some 2)⟩

set_option maxHeartbeats 1600000 in
/-- C9: the two integral-by-nature step fields are stored as truncated
integers when the extracted value is truthy (present and non-zero), and as
NULL otherwise — in particular an extracted value of 0 is stored as NULL,
not as the integer 0. -/
theorem integral_fields_truthy (rid : String) (n : ℕ) (d : Metrics) :
    (∀ v : ℚ, lookupKey "total_ac_tokens" d = some v →
      (buildStepRow rid n d).total_ac_tokens =
        if v = 0 then none else some (ratTrunc v)) ∧
    (∀ w : ℚ, lookupKey "total_turns" d = some w →
      (buildStepRow rid n d).total_turns =
        if w = 0 then none else some (ratTrunc w)) ∧
    ((∀ k ∈ candKeys ["total_ac_tokens"], lookupKey k d = none) →
      (buildStepRow rid n d).total_ac_tokens = none) ∧
    ((∀ k ∈ candKeys ["total_turns"], lookupKey k d = none) →
      (buildStepRow rid n d).total_turns = none) := by
  have hTat : (buildStepRow rid n d).total_ac_tokens =
      coerceIntField ((normalizeMetrics d).1.getD 8 none) := rfl
  have hTt : (buildStepRow rid n d).total_turns =
      coerceIntField ((normalizeMetrics d).1.getD 9 none) := rfl
  have hsplit8 : fieldKeyLists =
      keysBeforeTat ++ ("total_ac_tokens" :: ([] : List String)) :: keysAfterTat := by decide
  have hsplit9 : fieldKeyLists =
      keysBeforeTt ++ ("total_turns" :: ([] : List String)) :: keysAfterTt := by decide
  have hnorm8 : normalizeMetrics d =
      extractAll (keysBeforeTat ++ ("total_ac_tokens" :: ([] : List String)) :: keysAfterTat) d := by
    rw [← hsplit8]
    rfl
  have hnorm9 : normalizeMetrics d =
      extractAll (keysBeforeTt ++ ("total_turns" :: ([] : List String)) :: keysAfterTt) d := by
    rw [← hsplit9]
    rfl
  have hlen8 : keysBeforeTat.length = 8 := rfl
  have hlen9 : keysBeforeTt.length = 9 := rfl
  have hsurv8 : ∀ ks ∈ keysBeforeTat, "total_ac_tokens" ∉ candKeys ks := by decide
  have hsurv9 : ∀ ks ∈ keysBeforeTt, "total_turns" ∉ candKeys ks := by decide
  refine ⟨?_, ?_, ?_, ?_⟩
  · intro v hv
    rw [hTat, hnorm8, ← hlen8,
      extract_exact_head keysBeforeTat keysAfterTat "total_ac_tokens" [] d v hsurv8 hv]
    rfl
  · intro w hw
    rw [hTt, hnorm9, ← hlen9,
      extract_exact_head keysBeforeTt keysAfterTt "total_turns" [] d w hsurv9 hw]
    rfl
  · intro hall
    rw [hTat, hnorm8, ← hlen8, extract_absent keysBeforeTat keysAfterTat _ d hall]
    rfl
  · intro hall
    rw [hTt, hnorm9, ← hlen9, extract_absent keysBeforeTt keysAfterTt _ d hall]
    rfl

set_option maxHeartbeats 1600000 in
/-- Witness for C9: a mapping carrying total_ac_tokens 0 (stored as NULL)
and total_turns 7 (stored as the integer 7). -/
theorem integral_fields_truthy_witness :
    lookupKey "total_ac_tokens" [("total_ac_tokens", 0), ("total_turns", 7)] = some 0 ∧
    (buildStepRow "r" 1 [("total_ac_tokens", 0), ("total_turns", 7)]).total_ac_tokens = none ∧
    lookupKey "total_turns" [("total_ac_tokens", 0), ("total_turns", 7)] = some 7 ∧
    (buildStepRow "r" 1 [("total_ac_tokens", 0), ("total_turns", 7)]).total_turns = some 7 := by
  have h := integral_fields_truthy "r" 1 [("total_ac_tokens", 0), ("total_turns", 7)]
  have h1 := h.1 0 (by decide)
  have h2 := h.2.1 7 (by decide)
  refine ⟨by decide, ?_, by decide, ?_⟩
  · simpa using h1
  · simpa [ratTrunc] using h2

/-- C6: one log_rollouts call is atomic at the call boundary.  Its action
trace is all inserts followed by a single commit, so executing any strict
prefix (a crash mid-call) leaves the committed snapshot unchanged, while the
completed call commits every rollout row and every trajectory row of the
call together; in particular a rollout whose non-empty trajectory list was
supplied is never visible without at least one of its trajectory rows. -/
theorem log_rollouts_atomic (c : Conn) (rid : String) (st : ℕ) (rs : List RolloutInput)
    (k : ℕ) (hk : k < (logRolloutsActions rid st rs).length) :
    (runActions c ((logRolloutsActions rid st rs).take k)).committed = c.committed ∧
    (runActions c (logRolloutsActions rid st rs)).committed.rollouts =
      c.pending.rollouts ++ expectedRollouts c.nextRolloutId rid st rs ∧
    (runActions c (logRolloutsActions rid st rs)).committed.trajectories =
      c.pending.trajectories ++ expectedTrajs c.nextRolloutId rs ∧
    ∀ i : ℕ, ∀ hi : i < rs.length, getTrajs (rs.get ⟨i, hi⟩) ≠ [] →
      (c.nextRolloutId + i, mkRolloutRow rid st (rs.get ⟨i, hi⟩)) ∈
        (runActions c (logRolloutsActions rid st rs)).committed.rollouts ∧
      ∃ t ∈ (runActions c (logRolloutsActions rid st rs)).committed.trajectories,
        t.1 = c.nextRolloutId + i := by
  have hlen : (logRolloutsActions rid st rs).length = (rolloutActions rid st rs).length + 1 := by
    simp [logRolloutsActions]
  have hkle : k ≤ (rolloutActions rid st rs).length := by omega
  have htake : (logRolloutsActions rid st rs).take k = (rolloutActions rid st rs).take k := by
    unfold logRolloutsActions
    exact take_append_small _ _ k hkle
  have hfull : runActions c (logRolloutsActions rid st rs) =
      applyAction (runActions c (rolloutActions rid st rs)) DbAction.commit := by
    unfold logRolloutsActions runActions
    rw [List.foldl_append]
    rfl
  obtain ⟨hcom, hroll, htraj⟩ := runActions_rolloutActions rid st rs c
  have hcroll : (runActions c (logRolloutsActions rid st rs)).committed.rollouts =
      c.pending.rollouts ++ expectedRollouts c.nextRolloutId rid st rs := by
    rw [hfull]
    exact hroll
  have hctraj : (runActions c (logRolloutsActions rid st rs)).committed.trajectories =
      c.pending.trajectories ++ expectedTrajs c.nextRolloutId rs := by
    rw [hfull]
    exact htraj
  refine ⟨?_, hcroll, hctraj, ?_⟩
  · rw [htake]
    exact runActions_committed _ _
      (fun a ha => rolloutActions_no_commit rid st rs a (mem_take_mem _ _ _ ha))
  · intro i hi hne
    constructor
    · rw [hcroll]
      exact List.mem_append_right _ (expectedRollouts_mem rid st rs c.nextRolloutId i hi)
    · obtain ⟨t, ht, hid⟩ := expectedTrajs_mem rs c.nextRolloutId i hi hne
      refine ⟨t, ?_, hid⟩
      rw [hctraj]
      exact List.mem_append_right _ ht

/-- Witness for C6: a fresh connection, one rollout with two trajectories,
and a crash after zero actions. -/
theorem log_rollouts_atomic_witness :
    0 < (logRolloutsActions "run0001" 0 [sampleRollout]).length ∧
    (runActions freshConn ((logRolloutsActions "run0001" 0 [sampleRollout]).take 0)).committed =
      freshConn.committed ∧
    (runActions freshConn (logRolloutsActions "run0001" 0 [sampleRollout])).committed.rollouts =
      freshConn.pending.rollouts ++ expectedRollouts 1 "run0001" 0 [sampleRollout] ∧
    getTrajs sampleRollout ≠ [] ∧
    (1, mkRolloutRow "run0001" 0 sampleRollout) ∈
      (runActions freshConn (logRolloutsActions "run0001" 0 [sampleRollout])).committed.rollouts ∧
    ∃ t ∈ (runActions freshConn
        (logRolloutsActions "run0001" 0 [sampleRollout])).committed.trajectories,
      t.1 = 1 := by
  have h := log_rollouts_atomic freshConn "run0001" 0 [sampleRollout] 0 (by decide)
  have h4 := h.2.2.2 0 (by decide) (by decide)
  exact ⟨by decide, h.1, h.2.1, by decide, h4.1, h4.2⟩

/-- C4: if a metric mapping holds a canonical field's synonym under one of
the known namespaces and none of that field's unprefixed synonyms, then the
normalizer fills that canonical field with the value of exactly one such
namespaced key of the original mapping, and that key is absent from the
overflow mapping. -/
theorem namespaced_key_extracted_once (d : Metrics) (i : Fin fieldKeyLists.length)
    (hkeys : ∀ k ∈ fieldKeyLists.get i, lookupKey k d = none)
    (p k0 : String) (hp : p ∈ nsList) (hk : k0 ∈ fieldKeyLists.get i)
    (hpres : (lookupKey (p ++ k0) d).isSome) :
    ∃ K v, (∃ q ∈ nsList, ∃ k1 ∈ fieldKeyLists.get i, K = q ++ k1) ∧
      lookupKey K d = some v ∧
      (normalizeMetrics d).1.getD i.1 none = some v ∧
      lookupKey K (normalizeMetrics d).2 = none := by
  have hsurvC : ∀ K', K' ∈ candKeys (fieldKeyLists.get i) →
      lookupKey K' (extractAll (fieldKeyLists.take i.1) d).2 = lookupKey K' d :=
    fun K' hK' => extractAll_snd_lookup_not_mem
      (fun ks' hks' => cand_disjoint_take i ks' hks' K' hK')
  have hpkmem : p ++ k0 ∈ candKeys (fieldKeyLists.get i) := cand_mem_ns hk hp
  have hpk1 : (lookupKey (p ++ k0) (extractAll (fieldKeyLists.take i.1) d).2).isSome := by
    rw [hsurvC _ hpkmem]
    exact hpres
  have hfp : (firstPresent (extractAll (fieldKeyLists.take i.1) d).2
      (candKeys (fieldKeyLists.get i))).isSome :=
    firstPresent_isSome hpkmem hpk1
  obtain ⟨K, hK⟩ := Option.isSome_iff_exists.mp hfp
  obtain ⟨hKmem, hKsome⟩ := firstPresent_eq_some hK
  have hKns : ∃ q ∈ nsList, ∃ k1 ∈ fieldKeyLists.get i, K = q ++ k1 := by
    rcases cand_mem_cases hKmem with h1 | h1
    · have hnone : lookupKey K (extractAll (fieldKeyLists.take i.1) d).2 = none :=
        extractAll_snd_lookup_none (hkeys K h1)
      rw [hnone] at hKsome
      simp at hKsome
    · exact h1
  have hKd1 : lookupKey K (extractAll (fieldKeyLists.take i.1) d).2 = lookupKey K d :=
    hsurvC K hKmem
  obtain ⟨v, hv1⟩ := Option.isSome_iff_exists.mp hKsome
  have hvd : lookupKey K d = some v := by
    rw [← hKd1]
    exact hv1
  have hpop : popMetric (fieldKeyLists.get i) (extractAll (fieldKeyLists.take i.1) d).2 =
      (some v, eraseKey K (extractAll (fieldKeyLists.take i.1) d).2) := by
    unfold popMetric
    rw [hK]
    show (lookupKey K (extractAll (fieldKeyLists.take i.1) d).2,
      eraseKey K (extractAll (fieldKeyLists.take i.1) d).2) = _
    rw [hv1]
  have hsplit : fieldKeyLists =
      fieldKeyLists.take i.1 ++ fieldKeyLists.get i :: fieldKeyLists.drop (i.1 + 1) :=
    take_get_drop fieldKeyLists i.1 i.2
  have hnorm : normalizeMetrics d =
      extractAll (fieldKeyLists.take i.1 ++
        fieldKeyLists.get i :: fieldKeyLists.drop (i.1 + 1)) d := by
    rw [← hsplit]
    rfl
  have hlenfst : (extractAll (fieldKeyLists.take i.1) d).1.length = i.1 := by
    rw [extractAll_fst_length, List.length_take]
    exact Nat.min_eq_left (Nat.le_of_lt i.2)
  refine ⟨K, v, hKns, hvd, ?_, ?_⟩
  · rw [hnorm, extractAll_append_fst, getD_append_of_length _ _ _ hlenfst]
    simp only [extractAll]
    rw [hpop]
    rfl
  · rw [hnorm, extractAll_append_snd]
    simp only [extractAll]
    rw [hpop]
    exact extractAll_snd_lookup_none (lookupKey_eraseKey_self K _)

/-- Witness for C4: a mapping holding only the namespaced key "env/all/kl",
extracted into the kl_divergence field (index 3) and absent from overflow. -/
theorem namespaced_key_extracted_once_witness :
    (∀ k ∈ fieldKeyLists.get ⟨3, by decide⟩, lookupKey k [("env/all/kl", 3)] = none) ∧
    ∃ K v, (∃ q ∈ nsList, ∃ k1 ∈ fieldKeyLists.get ⟨3, by decide⟩, K = q ++ k1) ∧
      lookupKey K [("env/all/kl", 3)] = some v ∧
      (normalizeMetrics [("env/all/kl", 3)]).1.getD 3 none = some v ∧
      lookupKey K (normalizeMetrics [("env/all/kl", 3)]).2 = none :=
  ⟨by decide,
   namespaced_key_extracted_once [("env/all/kl", 3)] ⟨3, by decide⟩ (by decide)
     "env/all/" "kl" (by decide) (by decide) (by decide)⟩

end Tviz
